import Mathlib

/-!
Verification development for the `unicode-variants` pattern generator
(`src/lib/index.mjs`).

Modelling conventions:

* A JavaScript string is a sequence of UTF-16 code units, modelled as
  `JSStr := List Nat` (each unit < 2^16; we do not need to enforce the bound).
* The platform Unicode primitives used by the source
  (`String.prototype.normalize('NFKD')`, `normalize('NFC')`,
  `String.prototype.toLowerCase`, and the simple case folding used by the
  regex `i` flag) are external to the repository; they are abstracted into a
  `JSEnv` record of string functions, so theorems are proved for every
  environment (or under explicitly stated hypotheses about it).
* The repository files `regex.mjs` (escape_regex, setToPattern,
  arrayToPattern, sequencePattern), `strings.mjs` (allSubstrings) and
  `code_points.mjs` are imported by `index.mjs` but are not part of the
  given sources; they are modelled from the spec (see the individual
  doc comments starting with `Modelled from the spec:`).
* JavaScript numbers used as counters are modelled as `Int` where the
  source can compare against a possibly-negative quantity
  (`str.length - 1`), and as `Nat` for list indices.
-/

namespace UV

/-- A JavaScript string: a list of UTF-16 code units. -/
abbrev JSStr := List Nat

/-- Abstraction of the platform Unicode primitives used by `index.mjs`.
`nfkd`/`nfc` model `String.prototype.normalize('NFKD'/'NFC')`, `toLower`
models `String.prototype.toLowerCase`, and `foldCase` models the simple
case folding applied to a single code unit by a case-insensitive (`i` flag)
regular expression comparison. -/
structure JSEnv where
  nfkd : JSStr → JSStr
  nfc : JSStr → JSStr
  toLower : JSStr → JSStr
  foldCase : Nat → Nat

/-- Concatenation-map over a string, used to model per-character global
regex replacement and `String.fromCharCode`-style expansions. -/
def strConcatMap (f : Nat → JSStr) : JSStr → JSStr
  | [] => []
  | u :: r => f u ++ strConcatMap f r

theorem strConcatMap_append (f : Nat → JSStr) (a b : JSStr) :
    strConcatMap f (a ++ b) = strConcatMap f a ++ strConcatMap f b := by
  induction a with
  | nil => rfl
  | cons u r ih => simp [strConcatMap, ih]

/-- The `latin_convert` table of `index.mjs`:
`æ (230) → "ae"`, `ⱥ (11365) → "a"`, `ø (248) → "o"`,
`⁄ (8260) → "/"`, `∕ (8725) → "/"`. -/
def latin_convert (u : Nat) : Option JSStr :=
  if u = 230 then some [97, 101]
  else if u = 11365 then some [97]
  else if u = 248 then some [111]
  else if u = 8260 then some [47]
  else if u = 8725 then some [47]
  else none

/-- The `accent_pat` character class of `index.mjs`:
`[̀-ͯ\u{b7}\u{2be}]` (768–879, 183, 702). -/
def isAccent (u : Nat) : Bool :=
  (768 ≤ u && u ≤ 879) || u == 183 || u == 702

/-- One replacement step of `convert_pat`: a `latin_convert` key is replaced
by its table value; an accent character not in the table is replaced by
`latin_convert[ch] || ''`, i.e. the empty string; other characters are kept. -/
def convertPiece (u : Nat) : JSStr :=
  match latin_convert u with
  | some v => v
  | none => if isAccent u then [] else [u]

/-- The global replacement `str.replace(convert_pat, fn)` of `asciifold`.
Every alternative of `convert_pat` is a single code unit, so the global
`u`-flag replacement acts independently on each unit. -/
def convertReplace : JSStr → JSStr
  | [] => []
  | u :: r => convertPiece u ++ convertReplace r

theorem convertReplace_append (a b : JSStr) :
    convertReplace (a ++ b) = convertReplace a ++ convertReplace b := by
  induction a with
  | nil => rfl
  | cons u r ih => simp [convertReplace, ih]

theorem convertReplace_piece (u : Nat) :
    convertReplace (convertPiece u) = convertPiece u := by
  by_cases h1 : u = 230
  · subst h1; decide
  by_cases h2 : u = 11365
  · subst h2; decide
  by_cases h3 : u = 248
  · subst h3; decide
  by_cases h4 : u = 8260
  · subst h4; decide
  by_cases h5 : u = 8725
  · subst h5; decide
  have hl : latin_convert u = none := by
    simp [latin_convert, h1, h2, h3, h4, h5]
  by_cases ha : isAccent u
  · simp [convertPiece, hl, ha, convertReplace]
  · simp [convertPiece, hl, ha, convertReplace]

/-- `convert_pat` replacement is idempotent: its output contains no
character matched by `convert_pat`. -/
theorem convertReplace_idem (x : JSStr) :
    convertReplace (convertReplace x) = convertReplace x := by
  induction x with
  | nil => rfl
  | cons u r ih =>
    rw [show convertReplace (u :: r) = convertPiece u ++ convertReplace r from rfl,
      convertReplace_append, convertReplace_piece, ih]

/-- `decompose` of `index.mjs`: compatibility decomposition, applied
per-character when the string contains a code unit in `[ཱ-ཱྀ]`
(3953–3969), otherwise to the whole string. -/
def decompose (env : JSEnv) (s : JSStr) : JSStr :=
  if s.any (fun u => 3953 ≤ u && u ≤ 3969) then
    strConcatMap (fun u => env.nfkd [u]) s
  else
    env.nfkd s

/-- `asciifold` of `index.mjs`: decompose, lowercase, then strip/convert
via `convert_pat`. -/
def asciifold (env : JSEnv) (s : JSStr) : JSStr :=
  convertReplace (env.toLower (decompose env s))

/-- `String.fromCharCode(i)`: per ECMAScript, the argument is reduced
modulo 2^16 and the result is the single code unit so obtained. -/
def fromCharCode (i : Nat) : JSStr := [i % 65536]

/-- UTF-16 encoding of the code point `i` (what `String.fromCodePoint`
would produce): a surrogate pair for code points above `0xFFFF`. -/
def codePointUnits (i : Nat) : JSStr :=
  if i < 65536 then [i]
  else [55296 + (i - 65536) / 1024, 56320 + (i - 65536) % 1024]

/-- `max_char_length` of `index.mjs`. -/
def max_char_length : Nat := 3

/-- One yielded element of the `generator` of `index.mjs`. -/
structure CPObj where
  folded : JSStr
  composed : JSStr
  code_point : Nat
deriving DecidableEq, Repr

/-- The body of the `generator` loop of `index.mjs` for one code point `i`:
`none` when the code point is skipped, `some` of the yielded object
otherwise.  The skip checks appear in source order. -/
def genOne (env : JSEnv) (i : Nat) : Option CPObj :=
  let composed := fromCharCode i
  let folded := asciifold env composed
  if folded = env.toLower composed then none
  else if max_char_length < folded.length then none
  else if folded.length = 0 then none
  else
    let decomposed := env.nfkd composed
    let recomposed := env.nfc decomposed
    if recomposed = composed ∧ folded = decomposed then none
    else some ⟨folded, composed, i⟩

/-- The code points of an inclusive range `[lo, hi]`; empty when `lo > hi`,
matching the JS `for` loop. -/
def rangeList (lo hi : Nat) : List Nat := List.range' lo (hi + 1 - lo)

/-- The `generator` of `index.mjs`, materialised as a list. -/
def generator (env : JSEnv) (cps : List (Nat × Nat)) : List CPObj :=
  cps.flatMap (fun r => (rangeList r.1 r.2).filterMap (genOne env))

/-- Modelled from the spec: `escape_regex` of the external `regex.mjs`
("escaping a literal"): each regex metacharacter (including whitespace, as
escaped by the companion helper) is prefixed with a backslash (92). -/
def isMeta (u : Nat) : Bool :=
  u ∈ [45, 91, 93, 123, 125, 40, 41, 42, 43, 63, 46, 44, 92, 94, 36, 124, 35,
    32, 9, 10, 11, 12, 13]

/-- Modelled from the spec: `escape_regex` of the external `regex.mjs`. -/
def escape_regex (s : JSStr) : JSStr :=
  strConcatMap (fun u => if isMeta u then [92, u] else [u]) s

/-- Inverse of `escape_regex` on well-formed escaped literals: drops each
escaping backslash, recovering the literal text the pattern denotes. -/
def unescape_regex : JSStr → JSStr
  | [] => []
  | u :: r =>
    if u = 92 then
      match r with
      | [] => []
      | v :: r2 => v :: unescape_regex r2
    else u :: unescape_regex r

/-- Modelled from the spec: full anchored matching of an escaped-literal
regex fragment against a string, under the case-insensitive Unicode flags
`iu` (two code units match when their simple case foldings coincide).
This is the matching semantics for the fragments `escape_regex` emits:
`\u` matches the unit `u`; a plain non-backslash unit matches itself. -/
def litFullMatch (env : JSEnv) : JSStr → JSStr → Bool
  | [], s => s.isEmpty
  | u :: p, s =>
    if u = 92 then
      match p, s with
      | c :: p2, d :: s2 => (env.foldCase c == env.foldCase d) && litFullMatch env p2 s2
      | _, _ => false
    else
      match s with
      | d :: s2 => (env.foldCase u == env.foldCase d) && litFullMatch env p s2
      | [] => false

/-- Modelled from the spec: the anchored case-insensitive match
`new RegExp('^' + setToPattern(set) + '$', 'iu')` performed by
`addMatching` in `generateSets`: the alternation of a set of
escaped-literal fragments matches a string exactly when one of its
members does; the empty set's pattern matches nothing non-empty (and no
empty candidate is ever tested). -/
def setMatches (env : JSEnv) (set : List JSStr) (s : JSStr) : Bool :=
  set.any (fun e => litFullMatch env e s)

/-- Modelled from the spec: unanchored search with the same fragment,
i.e. `new RegExp(p, 'iu').test(s)`: some contiguous substring of `s` is
fully matched by the escaped-literal fragment `p`. -/
def litSearch (env : JSEnv) (p s : JSStr) : Bool :=
  (List.range (s.length + 1)).any (fun i =>
    (List.range (s.length + 1)).any (fun l =>
      litFullMatch env p ((s.drop i).take l)))

/-- Lookup in a JS object used as a string-keyed map, modelled as an
insertion-ordered association list. -/
def lookupSet : List (JSStr × List JSStr) → JSStr → Option (List JSStr)
  | [], _ => none
  | kv :: rest, k => if kv.1 = k then some kv.2 else lookupSet rest k

/-- Assignment `obj[k] = v` on a JS object: an existing key keeps its
position, a new key is appended. -/
def insertSet : List (JSStr × List JSStr) → JSStr → List JSStr → List (JSStr × List JSStr)
  | [], k, v => [(k, v)]
  | kv :: rest, k, v => if kv.1 = k then (k, v) :: rest else kv :: insertSet rest k v

/-- `addMatching` of `generateSets`: a candidate variant `to_add` is added
(escaped) to the set registered under `folded` unless the set's existing
anchored alternation already matches it case-insensitively. -/
def addMatching (env : JSEnv) (sets : List (JSStr × List JSStr))
    (folded to_add : JSStr) : List (JSStr × List JSStr) :=
  let folded_set := (lookupSet sets folded).getD []
  if setMatches env folded_set to_add then sets
  else insertSet sets folded (folded_set ++ [escape_regex to_add])

/-- The per-item step of `generateSets`: register the folded form, then
the composed character, under the folded key. -/
def setsStep (env : JSEnv) (sets : List (JSStr × List JSStr)) (v : CPObj) :
    List (JSStr × List JSStr) :=
  addMatching env (addMatching env sets v.folded v.folded) v.folded v.composed

/-- `generateSets` of `index.mjs`. -/
def generateSets (env : JSEnv) (cps : List (Nat × Nat)) :
    List (JSStr × List JSStr) :=
  (generator env cps).foldl (setsStep env) []

/-- Modelled from the spec: `sequencePattern` of the external `regex.mjs`
("turning an ordered list of fragments into a concatenation"). -/
def sequencePattern (xs : List JSStr) : JSStr := xs.flatten

/-- Modelled from the spec: `arrayToPattern` of the external `regex.mjs`
("turning a set of alternatives into an optimized alternation"): falsy
(empty) fragments are dropped; a single fragment stands alone; otherwise
the fragments are wrapped in a non-capturing alternation group
`(?: … | … )` — units 40 63 58, 124, 41. -/
def arrayToPattern (ps : List JSStr) : JSStr :=
  match ps.filter (fun p => !p.isEmpty) with
  | [] => []
  | [p] => p
  | qs => [40, 63, 58] ++ (List.intercalate [124] qs) ++ [41]

/-- Modelled from the spec: `setToPattern` of the external `regex.mjs`:
the alternation of the members of a set. -/
def setToPattern (set : List JSStr) : JSStr := arrayToPattern set

/-- `generateMap` of `index.mjs`: each folded key's variant set is
compiled into one alternation fragment. -/
def generateMap (env : JSEnv) (cps : List (Nat × Nat)) :
    List (JSStr × JSStr) :=
  (generateSets env cps).map (fun kv => (kv.1, setToPattern kv.2))

/-- Map lookup (`unicode_map.hasOwnProperty` / `unicode_map[str]`). -/
def mapLookup : List (JSStr × JSStr) → JSStr → Option JSStr
  | [], _ => none
  | kv :: rest, k => if kv.1 = k then some kv.2 else mapLookup rest k

/-- Stable insertion into a list sorted by strictly decreasing length:
an element is placed after all existing elements of length `≥` its own,
modelling the stable JS sort `(a, b) => b.length - a.length`. -/
def insertDescLen (x : JSStr) : List JSStr → List JSStr
  | [] => [x]
  | y :: ys => if y.length < x.length then x :: y :: ys else y :: insertDescLen x ys

/-- The `multi_char` list built inside `generateMap`: the escaped keys of
length `> 1`, sorted by descending length (stably). -/
def multiCharKeys (env : JSEnv) (cps : List (Nat × Nat)) : List JSStr :=
  (((generateSets env cps).filter (fun kv => 1 < kv.1.length)).map
    (fun kv => escape_regex kv.1)).foldl (fun acc x => insertDescLen x acc) []

/-- Modelled from the spec: the compiled multi-character matcher
(`multi_char_reg`, flag `u`, alternatives longest-first) tested against
`substr = str.substring(i)` with the `match.index !== 0` guard of
`getPattern`: the result is the first alternative (in pattern order) that
matches at position 0, i.e. whose literal text is a prefix of `substr`;
with no alternatives there is no match. -/
def matchAt (keys : List JSStr) (s : JSStr) : Option JSStr :=
  (keys.find? (fun k => (unescape_regex k).isPrefixOf s)).map unescape_regex

/-- Modelled from the spec: the test `str.match(multi_char_reg)` on
line 415 — does any multi-character key occur anywhere in `str`? -/
def anyMulti (keys : List JSStr) (s : JSStr) : Bool :=
  (List.range (s.length + 1)).any (fun i => (matchAt keys (s.drop i)).isSome)

/-- `Array.from(str)`: split a JS string into its code points, pairing a
high surrogate (0xD800–0xDBFF) with a following low surrogate
(0xDC00–0xDFFF). -/
def arrayFrom : JSStr → List JSStr
  | [] => []
  | [u] => [[u]]
  | u :: v :: r2 =>
    if (55296 ≤ u ∧ u ≤ 56319) ∧ (56320 ≤ v ∧ v ≤ 57343) then
      [u, v] :: arrayFrom r2
    else [u] :: arrayFrom (v :: r2)

/-- The per-run replacement inside `mapSequence`: a run with a map entry
is replaced by its fragment (`unicode_map[str] || str` keeps the run when
the fragment is falsy); a run with no entry is returned verbatim. -/
def mapRuns (map : List (JSStr × JSStr)) (strings : List JSStr) : List JSStr :=
  strings.map (fun str =>
    match mapLookup map str with
    | none => str
    | some p => if p.isEmpty then str else p)

/-- The `chars_replaced` counter of `mapSequence`: the total length of the
runs that have a map entry. -/
def charsReplaced (map : List (JSStr × JSStr)) (strings : List JSStr) : Int :=
  strings.foldl
    (fun n str => if (mapLookup map str).isSome then n + (str.length : Int) else n) 0

/-- `mapSequence` of `index.mjs`. -/
def mapSequence (map : List (JSStr × JSStr)) (strings : List JSStr)
    (min_replacement : Int) : Option JSStr :=
  if min_replacement ≤ charsReplaced map strings then
    some (sequencePattern (mapRuns map strings))
  else none

/-- Modelled from the spec: `allSubstrings` of the external `strings.mjs`:
every ordered partition of a string into contiguous non-empty pieces, as a
finite list. -/
def allSubstrings : JSStr → List (List JSStr)
  | [] => []
  | [u] => [[[u]]]
  | u :: v :: r =>
    (allSubstrings (v :: r)).flatMap (fun part =>
      match part with
      | [] => [[[u]]]
      | hd :: tl => [[u] :: hd :: tl, (u :: hd) :: tl])

/-- The loop of `substringsToPattern` after `min_replacement` has been
raised to at least `str.length - 1`: map every partition, keep the truthy
patterns, and alternate them (nothing when none survive). -/
def substringsLoop (map : List (JSStr × JSStr)) (str : JSStr) (m : Int) :
    Option JSStr :=
  let patterns := (allSubstrings str).foldl
    (fun ps sub =>
      match mapSequence map sub m with
      | some p => if p.isEmpty then ps else ps ++ [p]
      | none => ps) []
  if patterns.isEmpty then none else some (arrayToPattern patterns)

/-- `substringsToPattern` of `index.mjs`:
`min_replacement = Math.max(min_replacement, str.length - 1)` then the
partition loop. -/
def substringsToPattern (map : List (JSStr × JSStr)) (str : JSStr)
    (min_replacement : Int) : Option JSStr :=
  substringsLoop map str (max min_replacement ((str.length : Int) - 1))

/-- A matched run within the folded input (`{start, end, length, substr}`
in the source; `end` is spelled `stop` because `end` is a Lean keyword). -/
structure Part where
  start : Nat
  stop : Nat
  length : Nat
  substr : JSStr
deriving DecidableEq, Repr

/-- A candidate segmentation (`class Sequence` of `index.mjs`). -/
structure Sequence where
  parts : List Part
  substrs : List JSStr
  start : Nat
  stop : Nat
deriving DecidableEq, Repr

/-- `new Sequence()`. -/
def Sequence.empty : Sequence := ⟨[], [], 0, 0⟩

/-- `Sequence.prototype.add`. -/
def Sequence.add (seq : Sequence) (part : Part) : Sequence :=
  { parts := seq.parts ++ [part]
    substrs := seq.substrs ++ [part.substr]
    start := min part.start seq.start
    stop := max part.stop seq.stop }

/-- `Sequence.prototype.clone(position, last_piece)`: copy all parts but
the last, then re-add the last part truncated to
`last_piece.substr.substring(0, position - clone_last.start)`. -/
def Sequence.clone (seq : Sequence) (position : Nat) (last_piece : Part) :
    Sequence :=
  let base := seq.parts.dropLast.foldl Sequence.add Sequence.empty
  match seq.parts.getLast? with
  | none => base
  | some clone_last =>
    let last_substr := last_piece.substr.take (position - clone_last.start)
    base.add ⟨clone_last.start, clone_last.start + last_substr.length,
      last_substr.length, last_substr⟩

/-- The inner filter callback of `inSequences`: a first-match-decides scan
over the needle's parts (`return false` on an identical part, `continue`
past length-1 parts, `return true` on a genuine overlap). -/
def partKeep (part : Part) : List Part → Bool
  | [] => false
  | np :: rest =>
    if np.start = part.start ∧ np.substr = part.substr then false
    else if part.length = 1 ∨ np.length = 1 then partKeep part rest
    else if part.start < np.start ∧ np.start < part.stop then true
    else if np.start < part.start ∧ part.start < np.stop then true
    else partKeep part rest

/-- `inSequences` of `index.mjs`. -/
def inSequences (needle : Sequence) (seqs : List Sequence) : Bool :=
  seqs.any (fun seq =>
    seq.start = needle.start && seq.stop = needle.stop
    && seq.substrs.flatten = needle.substrs.flatten
    && (seq.parts.filter (fun part => partKeep part needle.parts)).isEmpty)

/-- `sequencesToPattern` of `index.mjs`: convert each sequence's first
`length()` (or `length() - 1` when `all` is false) substrings through
`substringsToPattern` (default minimum 1), concatenate per sequence —
an absent sub-pattern joins as the empty string, as `Array.join` renders
`undefined` — and alternate across sequences. -/
def sequencesToPattern (map : List (JSStr × JSStr)) (sequences : List Sequence)
    (all : Bool) : JSStr :=
  arrayToPattern (sequences.map (fun sequence =>
    let len := if all then sequence.parts.length else sequence.parts.length - 1
    sequencePattern ((sequence.substrs.take len).map
      (fun sub => (substringsToPattern map sub 1).getD []))))

/-- The elements of the `added_types` set of `getPattern`
(`'match:' + str`, `'char:' + str`, `'not-adding'`; the three string
shapes are pairwise distinct, so a sum type models the set faithfully). -/
inductive AddedType where
  | matched (m : JSStr)
  | chr (c : JSStr)
  | notAdding
deriving DecidableEq, Repr

/-- `Set.prototype.add`: insertion order, no duplicates. -/
def insertType (t : AddedType) (l : List AddedType) : List AddedType :=
  if t ∈ l then l else l ++ [t]

/-- Extension of one sequence at position `i` by the multi-character
match, if any, else by the single character (the first branch of the
sequence loop of `getPattern`). -/
def extendSeq (mtch : Option JSStr) (char : JSStr) (i : Nat)
    (sequence : Sequence) : Sequence × AddedType :=
  match mtch with
  | some m => (sequence.add ⟨i, i + m.length, m.length, m⟩, AddedType.matched m)
  | none => (sequence.add ⟨i, i + 1, 1, char⟩, AddedType.chr char)

/-- The body of the `for (const sequence of sequences)` loop of
`getPattern` for one sequence, accumulating the rebuilt live list, the
`overlapping` clones, and the `added_types` set. -/
def stepOneSeq (mtch : Option JSStr) (char : JSStr) (i : Nat)
    (acc : List Sequence × List Sequence × List AddedType)
    (sequence : Sequence) : List Sequence × List Sequence × List AddedType :=
  let ss := acc.1
  let over := acc.2.1
  let types := acc.2.2
  match sequence.parts.getLast? with
  | none =>
    let et := extendSeq mtch char i sequence
    (ss ++ [et.1], over, insertType et.2 types)
  | some last_piece =>
    if last_piece.length = 1 ∨ last_piece.stop ≤ i then
      let et := extendSeq mtch char i sequence
      (ss ++ [et.1], over, insertType et.2 types)
    else
      match mtch with
      | some m =>
        let clone := (sequence.clone i last_piece).add
          ⟨i, i + m.length, m.length, m⟩
        (ss ++ [sequence], over ++ [clone], types)
      | none => (ss ++ [sequence], over, insertType AddedType.notAdding types)

/-- The whole sequence loop of `getPattern` at position `i`. -/
def processSequences (mtch : Option JSStr) (char : JSStr) (i : Nat)
    (seqs : List Sequence) : List Sequence × List Sequence × List AddedType :=
  seqs.foldl (stepOneSeq mtch char i) ([], [], [])

/-- Stable insertion into a list sorted by ascending part count, modelling
the stable JS sort `(a, b) => a.length() - b.length()` on `overlapping`. -/
def insertAscLen (x : Sequence) : List Sequence → List Sequence
  | [] => [x]
  | y :: ys =>
    if x.parts.length < y.parts.length then x :: y :: ys else y :: insertAscLen x ys

/-- Stable sort of the `overlapping` clones by ascending part count. -/
def sortAscLen (l : List Sequence) : List Sequence :=
  l.foldl (fun acc x => insertAscLen x acc) []

/-- The scan state of `getPattern`: the pattern emitted so far and the
live candidate sequences. -/
structure ScanState where
  pattern : JSStr
  sequences : List Sequence
deriving DecidableEq, Repr

/-- One iteration of the scan loop of `getPattern` at position `i`:
process every live sequence, then either admit the deduplicated
overlapping clones, or compact when every sequence extended by the same
single added type, or just keep the extended live set. -/
def stepScan (map : List (JSStr × JSStr)) (keys : List JSStr) (str : JSStr)
    (st : ScanState) (i : Nat) : ScanState :=
  let mtch := matchAt keys (str.drop i)
  let char := (str.drop i).take 1
  let res := processSequences mtch char i st.sequences
  let seqs := res.1
  let over := res.2.1
  let types := res.2.2
  if over ≠ [] then
    { pattern := st.pattern
      sequences := (sortAscLen over).foldl
        (fun ss c => if inSequences c ss then ss else ss ++ [c]) seqs }
  else if 0 < i ∧ types.length = 1 ∧ AddedType.notAdding ∉ types then
    { pattern := st.pattern ++ sequencesToPattern map seqs false
      sequences := [Sequence.empty.add
        (((seqs.headD Sequence.empty).parts.getLast?).getD ⟨0, 0, 0, []⟩)] }
  else { pattern := st.pattern, sequences := seqs }

/-- `getPattern` of `index.mjs` (with `initialize()` inlined: the map and
the multi-character keys are built from the supplied code point ranges). -/
def getPattern (env : JSEnv) (cps : List (Nat × Nat)) (str0 : JSStr) :
    Option JSStr :=
  let map := generateMap env cps
  let keys := multiCharKeys env cps
  let str := asciifold env str0
  if anyMulti keys str then
    let final := (List.range str.length).foldl (stepScan map keys str)
      ⟨[], [Sequence.empty]⟩
    some (final.pattern ++ sequencesToPattern map final.sequences true)
  else
    mapSequence map (arrayFrom str) 0

/-- A concrete environment for witnesses: `nfkd` decomposes the private
unit 1000 to `a` (97) and 1001 to `bc` (98 99) and is the identity
elsewhere; `nfc`, `toLower` and `foldCase` are identities. -/
def envW : JSEnv :=
  { nfkd := strConcatMap (fun u =>
      if u = 1000 then [97] else if u = 1001 then [98, 99] else [u])
    nfc := fun s => s
    toLower := fun s => s
    foldCase := fun u => u }

/-- Concrete code point ranges for witnesses: the two units 1000 and 1001,
producing the map keys `a` (single-character) and `bc` (multi-character). -/
def cpsW : List (Nat × Nat) := [(1000, 1001)]

/-- C3: `asciifold` is deterministic and idempotent.  Determinism is the
trivial second conjunct (the model is a pure function); idempotence holds
whenever the platform primitives are stable on already-folded output
(decomposing and lowercasing `asciifold env s` leave it unchanged —
properties of the external Unicode tables, stated as hypotheses), because
the `convert_pat` replacement itself is idempotent. -/
theorem c3_fold_idempotent (env : JSEnv) (s : JSStr)
    (hd : decompose env (asciifold env s) = asciifold env s)
    (hl : env.toLower (asciifold env s) = asciifold env s) :
    asciifold env (asciifold env s) = asciifold env s ∧
      asciifold env s = asciifold env s := by
  refine ⟨?_, rfl⟩
  show convertReplace (env.toLower (decompose env (asciifold env s))) = _
  rw [hd, hl]
  exact convertReplace_idem (env.toLower (decompose env s))

/-- Witness for C3 at the concrete environment `envW` and the string
`"a" + combining acute (97 769)`, whose fold is `"a"`. -/
theorem c3_fold_idempotent_witness :
    (decompose envW (asciifold envW [97, 769]) = asciifold envW [97, 769]
      ∧ envW.toLower (asciifold envW [97, 769]) = asciifold envW [97, 769])
    ∧ asciifold envW (asciifold envW [97, 769]) = asciifold envW [97, 769] :=
  ⟨⟨by decide, by decide⟩,
    (c3_fold_idempotent envW [97, 769] (by decide) (by decide)).1⟩

/-- C9: for a code point `i` above `0xFFFF`, `String.fromCharCode(i)`
reduces `i` modulo 2^16, so the `generator` folds and registers the
single-unit character `i % 2^16` — not the UTF-16 (surrogate-pair)
rendering of the code point `i` — and behaves on `i` exactly as it does
on the BMP code point `i % 2^16` (up to the recorded code point number). -/
theorem c9_fromCharCode_truncation (i : Nat) (h : 65535 < i) :
    fromCharCode i = [i % 65536] ∧
    fromCharCode i = fromCharCode (i % 65536) ∧
    fromCharCode i ≠ codePointUnits i ∧
    ∀ env : JSEnv, (genOne env i).map (fun e => (e.folded, e.composed)) =
      (genOne env (i % 65536)).map (fun e => (e.folded, e.composed)) := by
  have hmod : i % 65536 % 65536 = i % 65536 := Nat.mod_mod_of_dvd i dvd_rfl
  have h2 : fromCharCode i = fromCharCode (i % 65536) := by
    simp [fromCharCode, hmod]
  refine ⟨rfl, h2, ?_, ?_⟩
  · simp [fromCharCode, codePointUnits, show ¬ i < 65536 by omega]
  · intro env
    unfold genOne
    rw [h2]
    dsimp only
    split_ifs <;> simp

/-- Witness for C9 at the concrete code point `0x1D400` (119808,
MATHEMATICAL BOLD CAPITAL A): the unit actually rendered is `0xD400`
(54272), while the UTF-16 form of the code point is the surrogate pair
`0xD835 0xDC00` (55349 56320). -/
theorem c9_fromCharCode_truncation_witness :
    65535 < 119808
    ∧ (fromCharCode 119808 = [119808 % 65536] ∧
        fromCharCode 119808 = fromCharCode (119808 % 65536) ∧
        fromCharCode 119808 ≠ codePointUnits 119808 ∧
        ∀ env : JSEnv,
          (genOne env 119808).map (fun e => (e.folded, e.composed)) =
            (genOne env (119808 % 65536)).map (fun e => (e.folded, e.composed)))
    ∧ fromCharCode 119808 = [54272]
    ∧ codePointUnits 119808 = [55349, 56320] :=
  ⟨by decide, c9_fromCharCode_truncation 119808 (by decide), by decide, by decide⟩

theorem genOne_eq_some (env : JSEnv) (j : Nat) (e : CPObj)
    (h : genOne env j = some e) :
    e = ⟨asciifold env (fromCharCode j), fromCharCode j, j⟩ := by
  unfold genOne at h
  dsimp only at h
  split_ifs at h
  simp_all

theorem genOne_isSome_iff (env : JSEnv) (i : Nat) :
    (genOne env i).isSome = true ↔
      (¬ asciifold env (fromCharCode i) = env.toLower (fromCharCode i)
        ∧ (asciifold env (fromCharCode i)).length ≤ max_char_length
        ∧ asciifold env (fromCharCode i) ≠ []
        ∧ ¬ (env.nfc (env.nfkd (fromCharCode i)) = fromCharCode i
              ∧ asciifold env (fromCharCode i) = env.nfkd (fromCharCode i))) := by
  unfold genOne
  dsimp only
  split_ifs with hA hB hC hD <;>
    simp_all [Nat.not_lt, List.length_eq_zero]

theorem mem_rangeList (lo hi j : Nat) :
    j ∈ rangeList lo hi ↔ lo ≤ j ∧ j ≤ hi := by
  unfold rangeList
  rw [List.mem_range'_1]
  omega

theorem mem_generator (env : JSEnv) (cps : List (Nat × Nat)) (e : CPObj) :
    e ∈ generator env cps ↔
      ∃ r ∈ cps, ∃ j ∈ rangeList r.1 r.2, genOne env j = some e := by
  unfold generator
  simp

theorem mem_insertSet (sets : List (JSStr × List JSStr)) (k : JSStr)
    (v : List JSStr) (kv : JSStr × List JSStr) (h : kv ∈ insertSet sets k v) :
    kv = (k, v) ∨ kv ∈ sets := by
  induction sets with
  | nil => simpa [insertSet] using h
  | cons a rest ih =>
    unfold insertSet at h
    split_ifs at h with hk
    · rcases List.mem_cons.mp h with h1 | h1
      · exact Or.inl h1
      · exact Or.inr (List.mem_cons_of_mem a h1)
    · rcases List.mem_cons.mp h with h1 | h1
      · exact Or.inr (h1 ▸ List.mem_cons_self a rest)
      · rcases ih h1 with h2 | h2
        · exact Or.inl h2
        · exact Or.inr (List.mem_cons_of_mem a h2)

theorem mem_addMatching (env : JSEnv) (sets : List (JSStr × List JSStr))
    (f t : JSStr) (kv : JSStr × List JSStr) (h : kv ∈ addMatching env sets f t) :
    kv ∈ sets ∨ kv.1 = f := by
  unfold addMatching at h
  dsimp only at h
  split_ifs at h
  · exact Or.inl h
  · rcases mem_insertSet _ _ _ _ h with h1 | h1
    · right; rw [h1]
    · exact Or.inl h1

theorem generator_folded_bounds (env : JSEnv) (cps : List (Nat × Nat))
    (e : CPObj) (h : e ∈ generator env cps) :
    0 < e.folded.length ∧ e.folded.length ≤ max_char_length := by
  rw [mem_generator] at h
  obtain ⟨r, _, j, _, hg⟩ := h
  have hs : (genOne env j).isSome = true := by rw [hg]; rfl
  rw [genOne_isSome_iff] at hs
  obtain ⟨_, hlen, hne, _⟩ := hs
  have he := genOne_eq_some env j e hg
  subst he
  exact ⟨List.length_pos.mpr hne, hlen⟩

theorem foldl_setsStep_keys (env : JSEnv) (items : List CPObj)
    (sets : List (JSStr × List JSStr))
    (hitems : ∀ v ∈ items, 0 < v.folded.length ∧ v.folded.length ≤ max_char_length)
    (hsets : ∀ kv ∈ sets, 0 < kv.1.length ∧ kv.1.length ≤ max_char_length) :
    ∀ kv ∈ items.foldl (setsStep env) sets,
      0 < kv.1.length ∧ kv.1.length ≤ max_char_length := by
  induction items generalizing sets with
  | nil => simpa using hsets
  | cons v rest ih =>
    intro kv hkv
    refine ih (setsStep env sets v) (fun w hw => hitems w (List.mem_cons_of_mem v hw))
      (fun kv2 hkv2 => ?_) kv hkv
    rcases mem_addMatching env _ _ _ kv2 hkv2 with h1 | h1
    · rcases mem_addMatching env _ _ _ kv2 h1 with h2 | h2
      · exact hsets kv2 h2
      · rw [h2]; exact hitems v (List.mem_cons_self v rest)
    · rw [h1]; exact hitems v (List.mem_cons_self v rest)

/-- C4: for every code point `i` inside a supplied range, the `generator`
yields an entry for `i` exactly when none of the four skip conditions
holds (fold equals the lowercased character; fold longer than 3 units;
fold empty; NFKD-then-NFC round-trips to the character and the fold equals
the NFKD decomposition) — and consequently every key of the map built from
the ranges has length between 1 and 3: a character whose fold exceeds 3
characters is never inserted. -/
theorem c4_generator_skips (env : JSEnv) (cps : List (Nat × Nat))
    (r : Nat × Nat) (i : Nat) (hr : r ∈ cps) (h1 : r.1 ≤ i) (h2 : i ≤ r.2) :
    ((∃ e ∈ generator env cps, e.code_point = i) ↔
      (¬ asciifold env (fromCharCode i) = env.toLower (fromCharCode i)
        ∧ (asciifold env (fromCharCode i)).length ≤ max_char_length
        ∧ asciifold env (fromCharCode i) ≠ []
        ∧ ¬ (env.nfc (env.nfkd (fromCharCode i)) = fromCharCode i
              ∧ asciifold env (fromCharCode i) = env.nfkd (fromCharCode i))))
    ∧ ∀ kv ∈ generateSets env cps,
        0 < kv.1.length ∧ kv.1.length ≤ max_char_length := by
  constructor
  · constructor
    · rintro ⟨e, he, hcp⟩
      rw [mem_generator] at he
      obtain ⟨r2, _, j, _, hg⟩ := he
      have he2 := genOne_eq_some env j e hg
      have hj : j = i := by rw [he2] at hcp; exact hcp
      subst hj
      have hs : (genOne env j).isSome = true := by rw [hg]; rfl
      rwa [genOne_isSome_iff] at hs
    · intro hconds
      have hs : (genOne env i).isSome = true := (genOne_isSome_iff env i).mpr hconds
      obtain ⟨e, hg⟩ := Option.isSome_iff_exists.mp hs
      refine ⟨e, ?_, ?_⟩
      · rw [mem_generator]
        exact ⟨r, hr, i, (mem_rangeList r.1 r.2 i).mpr ⟨h1, h2⟩, hg⟩
      · rw [genOne_eq_some env i e hg]
  · exact foldl_setsStep_keys env (generator env cps) []
      (fun v hv => generator_folded_bounds env cps v hv) (by simp)

/-- Witness for C4 at the concrete environment `envW`, range `(1000, 1001)`
and code point 1000 (which is yielded: its fold is `"a"`). -/
theorem c4_generator_skips_witness :
    ((1000, 1001) ∈ cpsW ∧ 1000 ≤ 1000 ∧ 1000 ≤ 1001)
    ∧ ((∃ e ∈ generator envW cpsW, e.code_point = 1000) ↔
        (¬ asciifold envW (fromCharCode 1000) = envW.toLower (fromCharCode 1000)
          ∧ (asciifold envW (fromCharCode 1000)).length ≤ max_char_length
          ∧ asciifold envW (fromCharCode 1000) ≠ []
          ∧ ¬ (envW.nfc (envW.nfkd (fromCharCode 1000)) = fromCharCode 1000
                ∧ asciifold envW (fromCharCode 1000) = envW.nfkd (fromCharCode 1000)))) :=
  ⟨⟨by decide, by decide, by decide⟩,
    (c4_generator_skips envW cpsW (1000, 1001) 1000 (by decide) (by decide)
      (by decide)).1⟩

theorem foldl_charsReplaced_le (map : List (JSStr × JSStr)) (l : List JSStr)
    (n : Int) :
    n ≤ l.foldl
      (fun n str => if (mapLookup map str).isSome then n + (str.length : Int) else n)
      n := by
  induction l generalizing n with
  | nil => exact le_refl n
  | cons x rest ih =>
    refine le_trans ?_ (ih _)
    dsimp only
    split_ifs
    · have : (0 : Int) ≤ (x.length : Int) := Int.ofNat_nonneg x.length
      omega
    · exact le_refl n

theorem charsReplaced_nonneg (map : List (JSStr × JSStr)) (strings : List JSStr) :
    0 ≤ charsReplaced map strings :=
  foldl_charsReplaced_le map strings 0

/-- C1 counterexample: with the concrete map built from `cpsW` (keys `a`
and `bc` only), the folded input `"x"` has no run with a registered
variant, yet `getPattern` returns the pattern `"x"` — not nothing —
because the no-multi-char path calls `mapSequence` with minimum 0. -/
theorem c1_counterexample :
    mapLookup (generateMap envW cpsW) [120] = none
    ∧ getPattern envW cpsW [120] = some [120]
    ∧ getPattern envW cpsW [120] ≠ none := by decide

/-- C1 (amended): on the path where the folded input contains no
multi-character key, `getPattern` passes a minimum replacement of 0 to
`mapSequence`, whose replacement counter is always non-negative, so a
pattern is always returned — even when no character is replaced;
`getPattern` never signals "no variant" on this path. -/
theorem c1_no_multi_always_some (env : JSEnv) (cps : List (Nat × Nat))
    (str : JSStr)
    (h : anyMulti (multiCharKeys env cps) (asciifold env str) = false) :
    getPattern env cps str =
      some (sequencePattern
        (mapRuns (generateMap env cps) (arrayFrom (asciifold env str))))
    ∧ getPattern env cps str ≠ none := by
  have hmain : getPattern env cps str =
      some (sequencePattern
        (mapRuns (generateMap env cps) (arrayFrom (asciifold env str)))) := by
    unfold getPattern
    dsimp only
    rw [h]
    simp only [Bool.false_eq_true, if_false]
    unfold mapSequence
    rw [if_pos (charsReplaced_nonneg _ _)]
  exact ⟨hmain, by rw [hmain]; exact Option.some_ne_none _⟩

/-- Witness for C1 (amended) at `envW`, `cpsW`, input `"x"`. -/
theorem c1_no_multi_always_some_witness :
    anyMulti (multiCharKeys envW cpsW) (asciifold envW [120]) = false
    ∧ getPattern envW cpsW [120] ≠ none :=
  ⟨by decide, (c1_no_multi_always_some envW cpsW [120] (by decide)).2⟩

/-- C2 (code bug): pattern soundness fails.  For the input
`"x" + U+0301 + "y"` (120 769 121), folding strips the combining acute, so
`getPattern` emits the literal pattern `"xy"`; compiled with flags `iu`,
that pattern matches no substring of the original input, which the claim
(and §8 of the spec) requires it to.  The failure needs no registered
variants at all; it is exhibited with the concrete `envW`/`cpsW` model. -/
theorem c2_pattern_soundness_bug :
    asciifold envW [120, 769, 121] = [120, 121]
    ∧ getPattern envW cpsW [120, 769, 121] = some [120, 121]
    ∧ litSearch envW [120, 121] [120, 769, 121] = false := by decide

/-- C10: a run with no entry in the unicode map is returned by
`mapSequence` verbatim — character for character, with no regex escaping —
and therefore appears unescaped inside the concatenation it returns; in
particular `getPattern` emits a folded `"("` (a regex metacharacter, which
`escape_regex` would render as `"\("`) unescaped into its output. -/
theorem c10_unescaped_runs (map : List (JSStr × JSStr)) (strings : List JSStr)
    (m : Int) (j : Nat) (run : JSStr) (hj : strings[j]? = some run)
    (hnone : mapLookup map run = none) :
    (mapRuns map strings)[j]? = some run
    ∧ (∀ p, mapSequence map strings m = some p →
        p = (mapRuns map strings).flatten ∧ run <:+: p)
    ∧ getPattern envW cpsW [40] = some [40]
    ∧ escape_regex [40] = [92, 40] := by
  have hget : (mapRuns map strings)[j]? = some run := by
    unfold mapRuns
    rw [List.getElem?_map, hj]
    simp [hnone]
  refine ⟨hget, ?_, by decide, by decide⟩
  intro p hp
  unfold mapSequence at hp
  split_ifs at hp
  have hpe : p = (mapRuns map strings).flatten := by
    simpa [sequencePattern] using hp.symm
  refine ⟨hpe, ?_⟩
  rw [hpe]
  exact List.infix_of_mem_flatten (List.getElem?_mem hget)

/-- Witness for C10 at the single-run list `["("]` with the concrete map
(which has no entry for `"("`). -/
theorem c10_unescaped_runs_witness :
    ([[40]] : List JSStr)[0]? = some [40]
    ∧ mapLookup (generateMap envW cpsW) [40] = none
    ∧ (mapRuns (generateMap envW cpsW) [[40]])[0]? = some [40] :=
  ⟨by decide, by decide,
    (c10_unescaped_runs (generateMap envW cpsW) [[40]] 0 0 [40] (by decide)
      (by decide)).1⟩

theorem substringsLoop_foldl_const (map : List (JSStr × JSStr)) (m : Int)
    (l : List (List JSStr)) (ps : List JSStr)
    (h : ∀ sub ∈ l, mapSequence map sub m = none) :
    l.foldl
      (fun ps sub =>
        match mapSequence map sub m with
        | some p => if p.isEmpty then ps else ps ++ [p]
        | none => ps) ps = ps := by
  induction l generalizing ps with
  | nil => rfl
  | cons sub rest ih =>
    have hsub : mapSequence map sub m = none := h sub (List.mem_cons_self sub rest)
    simp only [List.foldl_cons, hsub]
    exact ih ps (fun s hs => h s (List.mem_cons_of_mem sub hs))

theorem substringsLoop_none (map : List (JSStr × JSStr)) (str : JSStr) (m : Int)
    (h : ∀ sub ∈ allSubstrings str, charsReplaced map sub < m) :
    substringsLoop map str m = none := by
  unfold substringsLoop
  have hnone : ∀ sub ∈ allSubstrings str, mapSequence map sub m = none := by
    intro sub hs
    unfold mapSequence
    rw [if_neg (not_le.mpr (h sub hs))]
  rw [substringsLoop_foldl_const map m _ [] hnone]
  rfl

/-- C5: `substringsToPattern(str, min_replacement)` raises the minimum to
`max(min_replacement, str.length - 1)` before mapping any partition — so
running it again with the raised minimum yields the identical result —
and returns nothing whenever no contiguous partition of `str` reaches
that effective minimum replacement count. -/
theorem c5_substrings_min (map : List (JSStr × JSStr)) (str : JSStr) (m : Int)
    (h : ∀ sub ∈ allSubstrings str,
      charsReplaced map sub < max m ((str.length : Int) - 1)) :
    substringsToPattern map str m = none
    ∧ substringsToPattern map str m =
        substringsToPattern map str (max m ((str.length : Int) - 1)) := by
  constructor
  · exact substringsLoop_none map str _ h
  · unfold substringsToPattern
    congr 1
    rw [max_assoc, max_self]

/-- Witness for C5: `substringsToPattern("abc", 1)` with a map containing
no entries at all returns nothing (the spec's minimum-replacement
example). -/
theorem c5_substrings_min_witness :
    (∀ sub ∈ allSubstrings [97, 98, 99],
      charsReplaced [] sub < max 1 (((97 :: 98 :: 99 :: []).length : Int) - 1))
    ∧ substringsToPattern [] [97, 98, 99] 1 = none :=
  ⟨by decide, (c5_substrings_min [] [97, 98, 99] 1 (by decide)).1⟩

theorem foldl_add_parts (ps : List Part) (s : Sequence) :
    (ps.foldl Sequence.add s).parts = s.parts ++ ps := by
  induction ps generalizing s with
  | nil => simp
  | cons p rest ih => simp [List.foldl_cons, ih, Sequence.add]

theorem clone_parts (seq : Sequence) (i : Nat) (init : List Part) (lp : Part)
    (hparts : seq.parts = init ++ [lp]) (hstart : lp.start ≤ i)
    (hsub : lp.substr.length = lp.length) (hstop : i < lp.stop)
    (hinv : lp.stop = lp.start + lp.length) :
    (seq.clone i lp).parts =
      init ++ [⟨lp.start, i, i - lp.start, lp.substr.take (i - lp.start)⟩] := by
  unfold Sequence.clone
  rw [hparts, List.dropLast_concat, List.getLast?_concat]
  dsimp only
  have hn : (lp.substr.take (i - lp.start)).length = i - lp.start := by
    rw [List.length_take]; omega
  have hi : lp.start + (i - lp.start) = i := by omega
  simp [Sequence.add, foldl_add_parts, Sequence.empty, hn, hi]

/-- C6: during the scan, when a multi-character key begins at position `i`
and the (single) live sequence's last Part has length above 1 and end
beyond `i`, the sequence loop leaves the original sequence unmodified,
produces exactly one overlapping clone whose parts are the original parts
before the last, the last Part truncated to end exactly at `i`, and the
appended multi-character match — and (when no structurally equivalent
sequence exists) the scan step adds that clone to the candidate set as a
new sequence alongside the unmodified original. -/
theorem c6_overlap_clone (map : List (JSStr × JSStr)) (keys : List JSStr)
    (str : JSStr) (st : ScanState) (i : Nat) (m : JSStr) (seq : Sequence)
    (init : List Part) (lp : Part)
    (hseq : st.sequences = [seq])
    (hparts : seq.parts = init ++ [lp])
    (hm : matchAt keys (str.drop i) = some m)
    (hlen : 1 < lp.length)
    (hstop : i < lp.stop)
    (hstart : lp.start ≤ i)
    (hsub : lp.substr.length = lp.length)
    (hinv : lp.stop = lp.start + lp.length) :
    processSequences (matchAt keys (str.drop i)) ((str.drop i).take 1) i
        st.sequences =
      ([seq], [(seq.clone i lp).add ⟨i, i + m.length, m.length, m⟩], [])
    ∧ ((seq.clone i lp).add ⟨i, i + m.length, m.length, m⟩).parts =
        init ++ [⟨lp.start, i, i - lp.start, lp.substr.take (i - lp.start)⟩,
          ⟨i, i + m.length, m.length, m⟩]
    ∧ (inSequences ((seq.clone i lp).add ⟨i, i + m.length, m.length, m⟩) [seq]
          = false →
        stepScan map keys str st i =
          { pattern := st.pattern
            sequences := [seq,
              (seq.clone i lp).add ⟨i, i + m.length, m.length, m⟩] }) := by
  have hlast : seq.parts.getLast? = some lp := by
    rw [hparts]; exact List.getLast?_concat _
  have hcond : ¬ (lp.length = 1 ∨ lp.stop ≤ i) := by omega
  have hproc : processSequences (matchAt keys (str.drop i))
      ((str.drop i).take 1) i st.sequences =
      ([seq], [(seq.clone i lp).add ⟨i, i + m.length, m.length, m⟩], []) := by
    unfold processSequences
    rw [hseq]
    simp only [List.foldl_cons, List.foldl_nil]
    unfold stepOneSeq
    rw [hlast, hm]
    simp [hcond]
  refine ⟨hproc, ?_, ?_⟩
  · show (Sequence.add _ _).parts = _
    rw [Sequence.add]
    rw [clone_parts seq i init lp hparts hstart hsub hstop hinv]
    simp
  · intro hdup
    unfold stepScan
    dsimp only
    rw [hproc]
    dsimp only
    rw [if_pos (by simp)]
    have hsort : sortAscLen [(seq.clone i lp).add ⟨i, i + m.length, m.length, m⟩]
        = [(seq.clone i lp).add ⟨i, i + m.length, m.length, m⟩] := rfl
    rw [hsort]
    simp [hdup]

/-- A concrete sequence for the C6 witness: one part covering `"ii"`. -/
def seqW : Sequence := Sequence.empty.add ⟨0, 2, 2, [105, 105]⟩

/-- The last part of `seqW`. -/
def lpW : Part := ⟨0, 2, 2, [105, 105]⟩

/-- A concrete scan state for the C6 witness. -/
def stW : ScanState := ⟨[], [seqW]⟩

/-- Witness for C6: scanning `"iii"` with the single multi-character key
`"ii"` at position 1, where the live sequence's last part is the run
`"ii"` covering positions 0–2. -/
theorem c6_overlap_clone_witness :
    matchAt [[105, 105]] (([105, 105, 105] : JSStr).drop 1) = some [105, 105]
    ∧ processSequences (matchAt [[105, 105]] (([105, 105, 105] : JSStr).drop 1))
        ((([105, 105, 105] : JSStr).drop 1).take 1) 1 stW.sequences =
      ([seqW], [(seqW.clone 1 lpW).add ⟨1, 3, 2, [105, 105]⟩], []) :=
  ⟨by decide,
    (c6_overlap_clone [] [[105, 105]] [105, 105, 105] stW 1 [105, 105] seqW []
      lpW (by decide) (by decide) (by decide) (by decide) (by decide)
      (by decide) (by decide) (by decide)).1⟩

/-- C7: at any scan position `i > 0` where the sequence loop produced no
overlapping clones and the set of added types has exactly one element
that is not "not-adding" (every live sequence was extended by the same
single kind of run), the scan step appends the common prefix of all live
sequences — each sequence's parts except the last, compiled by
`sequencesToPattern` with `all = false` — to the output pattern, and
replaces the live set by a single fresh sequence containing only the last
Part. -/
theorem c7_compaction (map : List (JSStr × JSStr)) (keys : List JSStr)
    (str : JSStr) (st : ScanState) (i : Nat) (t : AddedType)
    (hover : (processSequences (matchAt keys (str.drop i))
      ((str.drop i).take 1) i st.sequences).2.1 = [])
    (htypes : (processSequences (matchAt keys (str.drop i))
      ((str.drop i).take 1) i st.sequences).2.2 = [t])
    (ht : t ≠ AddedType.notAdding)
    (hi : 0 < i) :
    stepScan map keys str st i =
      { pattern := st.pattern ++ sequencesToPattern map
          (processSequences (matchAt keys (str.drop i))
            ((str.drop i).take 1) i st.sequences).1 false
        sequences := [Sequence.empty.add
          ((((processSequences (matchAt keys (str.drop i))
              ((str.drop i).take 1) i st.sequences).1.headD
            Sequence.empty).parts.getLast?).getD ⟨0, 0, 0, []⟩)] } := by
  unfold stepScan
  dsimp only
  generalize hP : processSequences (matchAt keys (str.drop i))
    ((str.drop i).take 1) i st.sequences = res at hover htypes ⊢
  obtain ⟨seqs, over, types⟩ := res
  dsimp only at hover htypes ⊢
  subst hover
  subst htypes
  rw [if_neg (by simp)]
  rw [if_pos ⟨hi, rfl, by simpa using fun h => ht h.symm⟩]

/-- A concrete scan state for the C7 witness: one live sequence holding
the single-character part `"a"`. -/
def st7W : ScanState := ⟨[], [Sequence.empty.add ⟨0, 1, 1, [97]⟩]⟩

/-- Witness for C7: scanning `"ab"` with no multi-character keys at
position 1; every live sequence extends by the character `"b"`. -/
theorem c7_compaction_witness :
    ((processSequences (matchAt [] (([97, 98] : JSStr).drop 1))
        ((([97, 98] : JSStr).drop 1).take 1) 1 st7W.sequences).2.1 = []
      ∧ (processSequences (matchAt [] (([97, 98] : JSStr).drop 1))
        ((([97, 98] : JSStr).drop 1).take 1) 1 st7W.sequences).2.2 =
          [AddedType.chr [98]])
    ∧ stepScan [] [] [97, 98] st7W 1 =
      { pattern := st7W.pattern ++ sequencesToPattern []
          (processSequences (matchAt [] (([97, 98] : JSStr).drop 1))
            ((([97, 98] : JSStr).drop 1).take 1) 1 st7W.sequences).1 false
        sequences := [Sequence.empty.add
          ((((processSequences (matchAt [] (([97, 98] : JSStr).drop 1))
              ((([97, 98] : JSStr).drop 1).take 1) 1 st7W.sequences).1.headD
            Sequence.empty).parts.getLast?).getD ⟨0, 0, 0, []⟩)] } :=
  ⟨⟨by decide, by decide⟩,
    c7_compaction [] [] [97, 98] st7W 1 (AddedType.chr [98]) (by decide)
      (by decide) (by decide) (by decide)⟩

theorem litFullMatch_escape_self (env : JSEnv) (s : JSStr) :
    litFullMatch env (escape_regex s) s = true := by
  induction s with
  | nil => rfl
  | cons u r ih =>
    show litFullMatch env
      ((if isMeta u then [92, u] else [u]) ++ escape_regex r) (u :: r) = true
    by_cases hm : isMeta u
    · rw [if_pos hm]
      show litFullMatch env (92 :: u :: escape_regex r) (u :: r) = true
      unfold litFullMatch
      rw [if_pos rfl]
      simp [ih]
    · have hu : u ≠ 92 := fun h => hm (h ▸ (by decide))
      rw [if_neg hm]
      show litFullMatch env (u :: escape_regex r) (u :: r) = true
      unfold litFullMatch
      rw [if_neg hu]
      simp [ih]

theorem unescape_escape (s : JSStr) :
    unescape_regex (escape_regex s) = s := by
  induction s with
  | nil => rfl
  | cons u r ih =>
    show unescape_regex ((if isMeta u then [92, u] else [u]) ++ escape_regex r)
      = u :: r
    by_cases hm : isMeta u
    · rw [if_pos hm]
      show unescape_regex (92 :: u :: escape_regex r) = u :: r
      unfold unescape_regex
      rw [if_pos rfl]
      simp [ih]
    · have hu : u ≠ 92 := fun h => hm (h ▸ (by decide))
      rw [if_neg hm]
      show unescape_regex (u :: escape_regex r) = u :: r
      unfold unescape_regex
      rw [if_neg hu]
      simp [ih]

theorem setMatches_append_left (env : JSEnv) (set ext : List JSStr) (s : JSStr)
    (h : setMatches env set s = true) :
    setMatches env (set ++ ext) s = true := by
  unfold setMatches at h ⊢
  rw [List.any_append, h]
  rfl

theorem setMatches_concat_self (env : JSEnv) (set : List JSStr) (t : JSStr) :
    setMatches env (set ++ [escape_regex t]) t = true := by
  unfold setMatches
  rw [List.any_append]
  simp [litFullMatch_escape_self]

theorem lookupSet_insertSet (sets : List (JSStr × List JSStr)) (k : JSStr)
    (v : List JSStr) (k2 : JSStr) :
    lookupSet (insertSet sets k v) k2 =
      if k2 = k then some v else lookupSet sets k2 := by
  induction sets with
  | nil =>
    show (if k = k2 then some v else lookupSet [] k2)
      = if k2 = k then some v else lookupSet [] k2
    by_cases h : k2 = k
    · subst h; simp
    · rw [if_neg h, if_neg (fun hh => h hh.symm)]
  | cons a rest ih =>
    unfold insertSet
    by_cases h1 : a.1 = k
    · rw [if_pos h1]
      show (if k = k2 then some v else lookupSet rest k2)
        = if k2 = k then some v else lookupSet (a :: rest) k2
      by_cases h2 : k2 = k
      · subst h2; simp
      · rw [if_neg h2, if_neg (fun hh => h2 hh.symm)]
        show lookupSet rest k2 = if a.1 = k2 then some a.2 else lookupSet rest k2
        rw [if_neg (fun hh : a.1 = k2 => h2 (hh ▸ h1))]
    · rw [if_neg h1]
      show (if a.1 = k2 then some a.2 else lookupSet (insertSet rest k v) k2)
        = if k2 = k then some v
          else if a.1 = k2 then some a.2 else lookupSet rest k2
      by_cases h3 : a.1 = k2
      · have h2 : ¬ k2 = k := fun hh => h1 (h3.trans hh)
        rw [if_pos h3, if_neg h2, if_pos h3]
      · rw [if_neg h3, ih]
        by_cases h2 : k2 = k
        · rw [if_pos h2, if_pos h2]
        · rw [if_neg h2, if_neg h2, if_neg h3]

theorem lookupSet_mem (sets : List (JSStr × List JSStr)) (k : JSStr)
    (v : List JSStr) (h : lookupSet sets k = some v) : (k, v) ∈ sets := by
  induction sets with
  | nil => simp [lookupSet] at h
  | cons a rest ih =>
    unfold lookupSet at h
    split_ifs at h with h1
    · have hv : v = a.2 := (Option.some.injEq _ _).mp h.symm
      rw [hv, ← h1]
      exact List.mem_cons_self a rest
    · exact List.mem_cons_of_mem a (ih h)

theorem addMatching_lookup_self (env : JSEnv) (sets : List (JSStr × List JSStr))
    (f t : JSStr) :
    ∃ s', lookupSet (addMatching env sets f t) f = some s' := by
  unfold addMatching
  dsimp only
  split_ifs with hmatch
  · cases hl : lookupSet sets f with
    | none =>
      rw [hl] at hmatch
      simp [setMatches] at hmatch
    | some fs => exact ⟨fs, rfl⟩
  · rw [lookupSet_insertSet]
    simp

theorem addMatching_post (env : JSEnv) (sets : List (JSStr × List JSStr))
    (f t : JSStr) (s' : List JSStr)
    (h : lookupSet (addMatching env sets f t) f = some s') :
    setMatches env s' t = true := by
  unfold addMatching at h
  dsimp only at h
  split_ifs at h with hmatch
  · cases hl : lookupSet sets f with
    | none =>
      rw [hl] at hmatch
      simp [setMatches] at hmatch
    | some fs =>
      rw [hl] at h hmatch
      have : fs = s' := (Option.some.injEq _ _).mp h
      rw [← this]
      simpa using hmatch
  · rw [lookupSet_insertSet] at h
    simp only [if_pos rfl] at h
    rw [← (Option.some.injEq _ _).mp h]
    exact setMatches_concat_self env _ t

theorem addMatching_grows (env : JSEnv) (sets : List (JSStr × List JSStr))
    (f t k : JSStr) (s : List JSStr) (h : lookupSet sets k = some s) :
    ∃ ext, lookupSet (addMatching env sets f t) k = some (s ++ ext) := by
  unfold addMatching
  dsimp only
  split_ifs with hmatch
  · exact ⟨[], by rw [List.append_nil]; exact h⟩
  · rw [lookupSet_insertSet]
    by_cases hk : k = f
    · subst hk
      rw [if_pos rfl]
      rw [h]
      exact ⟨[escape_regex t], rfl⟩
    · rw [if_neg hk]
      exact ⟨[], by rw [List.append_nil]; exact h⟩

/-- The deduplication invariant of a variant set: each variant was added
only when the anchored alternation of the variants before it did not
already match its (unescaped) text case-insensitively. -/
def DedupSet (env : JSEnv) (set : List JSStr) : Prop :=
  ∀ j e, set[j]? = some e →
    setMatches env (set.take j) (unescape_regex e) = false

/-- The construction invariant of `generateSets`: every registered key's
first variant is its own escaped folded form, and every variant passed the
deduplication check against its predecessors. -/
def GoodSets (env : JSEnv) (sets : List (JSStr × List JSStr)) : Prop :=
  ∀ kv ∈ sets, kv.2.head? = some (escape_regex kv.1) ∧ DedupSet env kv.2

theorem DedupSet_append (env : JSEnv) (set : List JSStr) (t : JSStr)
    (hd : DedupSet env set) (hm : setMatches env set t = false) :
    DedupSet env (set ++ [escape_regex t]) := by
  intro j e hj
  by_cases hlt : j < set.length
  · rw [List.getElem?_append, if_pos hlt] at hj
    rw [List.take_append_of_le_length (le_of_lt hlt)]
    exact hd j e hj
  · have hlen : j < set.length + 1 := by
      have h1 := List.getElem?_eq_some.mp hj
      have h2 := h1.1
      simpa using h2
    have hj' : j = set.length := by omega
    subst hj'
    rw [List.getElem?_concat_length] at hj
    have he : e = escape_regex t := ((Option.some.injEq _ _).mp hj).symm
    subst he
    rw [List.take_left, unescape_escape]
    exact hm

theorem addMatching_good (env : JSEnv) (sets : List (JSStr × List JSStr))
    (f t : JSStr) (hg : GoodSets env sets)
    (hft : t = f ∨ lookupSet sets f ≠ none) :
    GoodSets env (addMatching env sets f t) := by
  unfold addMatching
  dsimp only
  split_ifs with hmatch
  · exact hg
  · intro kv hkv
    rcases mem_insertSet _ _ _ _ hkv with hkv1 | hkv1
    · subst hkv1
      cases hl : lookupSet sets f with
      | none =>
        have ht : t = f := by
          rcases hft with h | h
          · exact h
          · exact absurd hl h
        subst ht
        refine ⟨rfl, ?_⟩
        intro j e hj
        have hlen : j < 1 := by
          have h1 := List.getElem?_eq_some.mp hj
          simpa using h1.1
        have hj' : j = 0 := by omega
        subst hj'
        rfl
      | some fs =>
        have hmem : (f, fs) ∈ sets := lookupSet_mem sets f fs hl
        obtain ⟨hhead, hdedup⟩ := hg (f, fs) hmem
        dsimp only [Option.getD_some]
        constructor
        · cases fs with
          | nil => simp at hhead
          | cons a fs2 =>
            simpa using hhead
        · refine DedupSet_append env fs t hdedup ?_
          rw [hl] at hmatch
          simpa using hmatch
    · exact hg kv hkv1

theorem setsStep_good (env : JSEnv) (sets : List (JSStr × List JSStr))
    (v : CPObj) (hg : GoodSets env sets) :
    GoodSets env (setsStep env sets v) := by
  unfold setsStep
  have h1 : GoodSets env (addMatching env sets v.folded v.folded) :=
    addMatching_good env sets v.folded v.folded hg (Or.inl rfl)
  refine addMatching_good env _ v.folded v.composed h1 (Or.inr ?_)
  obtain ⟨s', hs'⟩ := addMatching_lookup_self env sets v.folded v.folded
  rw [hs']
  exact Option.some_ne_none s'

theorem foldl_setsStep_good (env : JSEnv) (items : List CPObj)
    (sets : List (JSStr × List JSStr)) (hg : GoodSets env sets) :
    GoodSets env (items.foldl (setsStep env) sets) := by
  induction items generalizing sets with
  | nil => exact hg
  | cons v rest ih => exact ih (setsStep env sets v) (setsStep_good env sets v hg)

theorem foldl_setsStep_grows (env : JSEnv) (items : List CPObj)
    (sets : List (JSStr × List JSStr)) (k : JSStr) (s : List JSStr)
    (h : lookupSet sets k = some s) :
    ∃ ext, lookupSet (items.foldl (setsStep env) sets) k = some (s ++ ext) := by
  induction items generalizing sets s with
  | nil => exact ⟨[], by rw [List.append_nil]; exact h⟩
  | cons v rest ih =>
    obtain ⟨e1, h1⟩ := addMatching_grows env sets v.folded v.folded k s h
    obtain ⟨e2, h2⟩ := addMatching_grows env _ v.folded v.composed k _ h1
    obtain ⟨e3, h3⟩ := ih (setsStep env sets v) (s ++ e1 ++ e2) h2
    exact ⟨e1 ++ e2 ++ e3, by simpa [List.append_assoc] using h3⟩

theorem foldl_setsStep_processed (env : JSEnv) (items : List CPObj)
    (v : CPObj) :
    v ∈ items → ∀ sets : List (JSStr × List JSStr),
      ∃ s', lookupSet (items.foldl (setsStep env) sets) v.folded = some s'
        ∧ setMatches env s' v.composed = true := by
  induction items with
  | nil => intro hv; simp at hv
  | cons w rest ih =>
    intro hv sets
    rcases List.mem_cons.mp hv with hv1 | hv1
    · subst hv1
      obtain ⟨s0, hs0⟩ := addMatching_lookup_self env
        (addMatching env sets v.folded v.folded) v.folded v.composed
      have hpost : setMatches env s0 v.composed = true :=
        addMatching_post env _ v.folded v.composed s0 hs0
      obtain ⟨ext, hext⟩ := foldl_setsStep_grows env rest
        (setsStep env sets v) v.folded s0 hs0
      exact ⟨s0 ++ ext, hext, setMatches_append_left env s0 ext _ hpost⟩
    · exact ih hv1 (setsStep env sets w)


/-- C8: for every key `k` registered in the built map, (1) the first
variant of `k`'s set is `k`'s own escaped folded form (it is registered
before the composed character of any item is considered); (2) every
variant was added only because the existing anchored alternation,
compiled case-insensitively in Unicode mode, did not already match it;
(3) consequently the compiled fragment for `k` matches `k` itself
case-insensitively; and (4) it matches the composed character of every
generator item that folds to `k`. -/
theorem c8_map_invariant (env : JSEnv) (cps : List (Nat × Nat)) (k : JSStr)
    (set : List JSStr) (hk : lookupSet (generateSets env cps) k = some set) :
    set.head? = some (escape_regex k)
    ∧ DedupSet env set
    ∧ setMatches env set k = true
    ∧ ∀ v ∈ generator env cps, v.folded = k →
        setMatches env set v.composed = true := by
  have hgood : GoodSets env (generateSets env cps) :=
    foldl_setsStep_good env (generator env cps) [] (by intro kv hkv; simp at hkv)
  have hmem : (k, set) ∈ generateSets env cps :=
    lookupSet_mem (generateSets env cps) k set hk
  obtain ⟨hhead, hdedup⟩ := hgood (k, set) hmem
  refine ⟨hhead, hdedup, ?_, ?_⟩
  · cases set with
    | nil => simp at hhead
    | cons a rest =>
      have ha : a = escape_regex k := by simpa using hhead
      subst ha
      unfold setMatches
      simp [litFullMatch_escape_self]
  · intro v hv hvf
    obtain ⟨s', hs', hmatch⟩ :=
      foldl_setsStep_processed env (generator env cps) v hv []
    rw [hvf] at hs'
    have : s' = set := by
      rw [show generateSets env cps =
        (generator env cps).foldl (setsStep env) [] from rfl] at hk
      rw [hk] at hs'
      exact (Option.some.injEq _ _).mp hs'.symm
    rw [← this]
    exact hmatch

/-- Witness for C8 at `envW`/`cpsW` and the key `"a"` (97), whose
registered set is `{a, 1000}`. -/
theorem c8_map_invariant_witness :
    lookupSet (generateSets envW cpsW) [97] = some [[97], [1000]]
    ∧ setMatches envW [[97], [1000]] [97] = true :=
  ⟨by decide,
    (c8_map_invariant envW cpsW [97] [[97], [1000]] (by decide)).2.2.1⟩

end UV
